import Mathlib

/-!
Shallow embedding of the prometheus-parking-lot scheduler core, translated from
the Rust sources:

* `src/core/resource_pool.rs` — admission, capacity accounting (CAS loop),
  completion release, and the wake protocol, read sequentially (one atomic
  step of the program at a time, no interleaving inside a step).
* `src/infra/queue/memory.rs` — `InMemoryQueue` over a binary max-heap.
  The heap is modelled as the list of its elements in insertion order;
  `pop` removes a maximal element under the `Ord for PriorityTask`
  comparator (first maximal on ties, a refinement of the heap contract).
* `src/infra/mailbox/memory.rs` — `InMemoryMailbox`, a keyed append log.
  The `HashMap` is modelled as a total function with `[]` as default.
* `src/core/worker_pool.rs` and `src/core/worker_pool/native.rs` — the
  worker pool's submit / result-storage / retrieve protocol.  The condvar
  wait inside `wait_for_result` is abstracted by an oracle argument telling
  whether a worker stored the result during the wait.

Machine integers (`u32`, `u64`, `u128`, `usize`) are modelled as `Nat`;
none of the verified claims concerns wrap-around behaviour.
-/

namespace ParkingLot

/-- Modelled from the spec: `Priority` is the ordered enum
`{Low < Normal < High < Critical}` (its Rust definition lives in
`src/util/serde.rs`, which is not part of the provided sources; the four
variants are fixed by their uses in `src/infra/queue/memory.rs`). -/
inductive Priority where
  | low
  | normal
  | high
  | critical
deriving DecidableEq, Repr

/-- Modelled from the spec: `kind` tags the resource (CPU slot, GPU-VRAM
megabytes, ...) and is informational only. -/
inductive ResourceKind where
  | cpu
  | gpuVram
deriving DecidableEq, Repr

/-- Modelled from the spec: `ResourceCost = (kind, units : u32)`. -/
structure ResourceCost where
  kind : ResourceKind
  units : Nat
deriving DecidableEq, Repr

/-- Modelled from the spec: `MailboxKey = (tenant, user_id?, session_id?)`,
equality by full tuple (the struct itself is in the missing
`src/util/serde.rs`; its fields are fixed by `generate_mailbox_key` in
`src/core/worker_pool.rs`). -/
structure MailboxKey where
  tenant : String
  userId : Option String
  sessionId : Option String
deriving DecidableEq, Repr

/-- Embedding of `TaskMetadata` from `src/core/resource_pool.rs`. -/
structure TaskMetadata where
  id : Nat
  mailbox : Option MailboxKey
  priority : Priority
  cost : ResourceCost
  deadlineMs : Option Nat
  createdAtMs : Nat
deriving DecidableEq, Repr

/-- Embedding of `ScheduledTask<P>` from `src/core/resource_pool.rs`. -/
structure ScheduledTask (P : Type) where
  meta : TaskMetadata
  payload : P
deriving DecidableEq, Repr

/-- Embedding of `TaskStatus` from `src/core/resource_pool.rs`. -/
inductive TaskStatus where
  | queued
  | running
  | completed
  | failed (reason : String)
  | expired
  | dropped (reason : String)
deriving DecidableEq, Repr

/-- Embedding of `SchedulerError` from `src/core/error.rs`. -/
inductive SchedulerError where
  | queueFull (msg : String)
  | capacityExceeded
  | deadlineExpired
  | backend (msg : String)
deriving DecidableEq, Repr

/-! ### Priority queue (`src/infra/queue/memory.rs`) -/

/-- Embedding of `PriorityTask::priority_value` in `src/infra/queue/memory.rs`. -/
def priorityValue : Priority → Nat
  | .low => 0
  | .normal => 1
  | .high => 2
  | .critical => 3

/-- Strict order from `impl Ord for PriorityTask`: `a < b` when `b` ranks
higher in the max-heap, i.e. `b` has a larger priority value, or the same
priority value and an earlier `created_at_ms` (FIFO within priority is
obtained by reversing the `created_at_ms` comparison). -/
def taskLt {P : Type} (a b : ScheduledTask P) : Prop :=
  priorityValue a.meta.priority < priorityValue b.meta.priority ∨
    (priorityValue a.meta.priority = priorityValue b.meta.priority ∧
      b.meta.createdAtMs < a.meta.createdAtMs)

instance {P : Type} (a b : ScheduledTask P) : Decidable (taskLt a b) := by
  unfold taskLt; infer_instance

/-- Embedding of `BinaryHeap::pop`: remove and return a maximal element under `taskLt`,
keeping the remaining elements in their original order.  On ties the
earliest-inserted maximal element is returned (one admissible refinement of
the heap contract, under which tie order is unspecified). -/
def popMax {P : Type} : List (ScheduledTask P) → Option (ScheduledTask P × List (ScheduledTask P))
  | [] => none
  | x :: xs =>
    match popMax xs with
    | none => some (x, [])
    | some (b, r) => if taskLt x b then some (b, x :: r) else some (x, xs)

/-- Embedding of `InMemoryQueue` from `src/infra/queue/memory.rs`; the heap content is
the `tasks` list in insertion order. -/
structure InMemoryQueue (P : Type) where
  maxDepth : Nat
  tasks : List (ScheduledTask P)
deriving DecidableEq, Repr

/-- Embedding of `InMemoryQueue::enqueue`. -/
def enqueue {P : Type} (q : InMemoryQueue P) (task : ScheduledTask P) :
    Except SchedulerError (InMemoryQueue P) :=
  if q.tasks.length ≥ q.maxDepth then
    .error (.queueFull "max queue depth reached")
  else
    .ok ⟨q.maxDepth, q.tasks ++ [task]⟩

/-- Embedding of `InMemoryQueue::dequeue` (`self.tasks.pop()`, which never fails). -/
def dequeue {P : Type} (q : InMemoryQueue P) :
    Option (ScheduledTask P) × InMemoryQueue P :=
  match popMax q.tasks with
  | none => (none, q)
  | some (b, r) => (some b, ⟨q.maxDepth, r⟩)

/-- Deadline filter of `InMemoryQueue::prune_expired`: a task is kept when
`deadline_ms.map(|d| d > now_ms).unwrap_or(true)`. -/
def keepTask {P : Type} (nowMs : Nat) (t : ScheduledTask P) : Bool :=
  match t.meta.deadlineMs with
  | some d => decide (d > nowMs)
  | none => true

/-- Embedding of `InMemoryQueue::prune_expired`: rebuild the heap from the kept tasks and
return `before.saturating_sub(after)` (`Nat` subtraction is saturating). -/
def pruneExpired {P : Type} (q : InMemoryQueue P) (nowMs : Nat) :
    Nat × InMemoryQueue P :=
  let kept := q.tasks.filter (keepTask nowMs)
  (q.tasks.length - kept.length, ⟨q.maxDepth, kept⟩)

theorem popMax_eq_none_iff {P : Type} (l : List (ScheduledTask P)) :
    popMax l = none ↔ l = [] := by
  cases l with
  | nil => simp [popMax]
  | cons x xs =>
    simp only [popMax]
    cases hx : popMax xs with
    | none => simp
    | some br => obtain ⟨b, r⟩ := br; by_cases h : taskLt x b <;> simp [h]

theorem popMax_length {P : Type} :
    ∀ (l : List (ScheduledTask P)) (b : ScheduledTask P) (r : List (ScheduledTask P)),
      popMax l = some (b, r) → r.length + 1 = l.length := by
  intro l
  induction l with
  | nil => intro b r h; simp [popMax] at h
  | cons x xs ih =>
    intro b r h
    simp only [popMax] at h
    cases hx : popMax xs with
    | none =>
      rw [hx] at h
      cases h
      have hnil : xs = [] := (popMax_eq_none_iff xs).mp hx
      subst hnil
      simp
    | some br =>
      obtain ⟨b0, r0⟩ := br
      rw [hx] at h
      by_cases hlt : taskLt x b0
      · simp [hlt] at h
        obtain ⟨hb, hr⟩ := h
        subst hb; subst hr
        have := ih b0 r0 hx
        simp [List.length_cons]
        omega
      · simp [hlt] at h
        obtain ⟨hb, hr⟩ := h
        subst hb; subst hr
        simp

theorem taskLt_asymm {P : Type} {a b : ScheduledTask P} (h : taskLt a b) : ¬ taskLt b a := by
  simp only [taskLt] at *
  omega

theorem taskLt_of_taskLt_of_not_taskLt {P : Type} {a b c : ScheduledTask P}
    (h1 : taskLt a b) (h2 : ¬ taskLt c b) : taskLt a c := by
  simp only [taskLt] at *
  omega

theorem not_taskLt_of_not_of_not {P : Type} {a b c : ScheduledTask P}
    (h1 : ¬ taskLt a b) (h2 : ¬ taskLt b c) : ¬ taskLt a c := by
  simp only [taskLt] at *
  omega

/-- Structure of `popMax`: the returned element splits the list into a strict
lower prefix and a not-greater suffix, and the remainder keeps the original
order. -/
theorem popMax_decomp {P : Type} :
    ∀ (l : List (ScheduledTask P)) (b : ScheduledTask P) (r : List (ScheduledTask P)),
      popMax l = some (b, r) →
      ∃ l1 l2, l = l1 ++ b :: l2 ∧ r = l1 ++ l2 ∧
        (∀ y ∈ l1, taskLt y b) ∧ (∀ y ∈ l2, ¬ taskLt b y) := by
  intro l
  induction l with
  | nil => intro b r h; simp [popMax] at h
  | cons x xs ih =>
    intro b r h
    simp only [popMax] at h
    cases hx : popMax xs with
    | none =>
      rw [hx] at h
      cases h
      have hnil : xs = [] := (popMax_eq_none_iff xs).mp hx
      subst hnil
      exact ⟨[], [], by simp, by simp, by simp, by simp⟩
    | some br =>
      obtain ⟨b0, r0⟩ := br
      rw [hx] at h
      obtain ⟨l1, l2, hl, hr0, h1, h2⟩ := ih b0 r0 hx
      by_cases hlt : taskLt x b0
      · simp only [hlt, if_pos, Option.some.injEq, Prod.mk.injEq] at h
        obtain ⟨hb, hrr⟩ := h
        subst hb; subst hrr
        refine ⟨x :: l1, l2, by simp [hl], by simp [hr0], ?_, h2⟩
        intro y hy
        rcases List.mem_cons.mp hy with hy | hy
        · subst hy; exact hlt
        · exact h1 y hy
      · simp only [hlt, if_neg, not_false_iff, Option.some.injEq, Prod.mk.injEq] at h
        obtain ⟨hb, hrr⟩ := h
        subst hb; subst hrr
        refine ⟨[], xs, by simp, by simp, by simp, ?_⟩
        intro y hy
        rw [hl] at hy
        rcases List.mem_append.mp hy with hy | hy
        · exact taskLt_asymm (taskLt_of_taskLt_of_not_taskLt (h1 y hy) hlt)
        · rcases List.mem_cons.mp hy with hy | hy
          · subst hy; exact hlt
          · exact not_taskLt_of_not_of_not hlt (h2 y hy)

theorem popMax_mem {P : Type} {l : List (ScheduledTask P)} {b : ScheduledTask P}
    {r : List (ScheduledTask P)} (h : popMax l = some (b, r)) : b ∈ l := by
  obtain ⟨l1, l2, hl, _, _, _⟩ := popMax_decomp l b r h
  rw [hl]
  exact List.mem_append.mpr (Or.inr (List.mem_cons_self b l2))

/-- Converse of `popMax_decomp`: a first-maximal decomposition determines the
result of `popMax`. -/
theorem popMax_of_decomp {P : Type} :
    ∀ (l1 : List (ScheduledTask P)) (b : ScheduledTask P) (l2 : List (ScheduledTask P)),
      (∀ y ∈ l1, taskLt y b) → (∀ y ∈ l2, ¬ taskLt b y) →
      popMax (l1 ++ b :: l2) = some (b, l1 ++ l2) := by
  intro l1
  induction l1 with
  | nil =>
    intro b l2 _ h2
    simp only [List.nil_append, popMax]
    cases hx : popMax l2 with
    | none =>
      have hnil : l2 = [] := (popMax_eq_none_iff l2).mp hx
      subst hnil; rfl
    | some br =>
      obtain ⟨b2, r2⟩ := br
      have hb2 : b2 ∈ l2 := popMax_mem hx
      simp [h2 b2 hb2]
  | cons x l1t ih =>
    intro b l2 h1 h2
    have hx : taskLt x b := h1 x (List.mem_cons_self x l1t)
    have ihx := ih b l2 (fun y hy => h1 y (List.mem_cons_of_mem x hy)) h2
    simp only [List.cons_append, popMax, List.append_eq, ihx, hx, if_pos]

/-- Fuel-driven iteration of `popMax`; `List.length` fuel always suffices
(see `drainTasks`). -/
def drainTasksFuel {P : Type} : Nat → List (ScheduledTask P) → List (ScheduledTask P)
  | 0, _ => []
  | fuel + 1, l =>
    match popMax l with
    | none => []
    | some br => br.1 :: drainTasksFuel fuel br.2

/-- The full dequeue sequence: repeatedly pop a maximal task until the heap
is empty (this is what successive `dequeue()` calls return). -/
def drainTasks {P : Type} (l : List (ScheduledTask P)) : List (ScheduledTask P) :=
  drainTasksFuel l.length l

theorem drainTasksFuel_congr {P : Type} :
    ∀ (f1 f2 : Nat) (l : List (ScheduledTask P)), l.length ≤ f1 → l.length ≤ f2 →
      drainTasksFuel f1 l = drainTasksFuel f2 l := by
  intro f1
  induction f1 with
  | zero =>
    intro f2 l h1 _
    have : l = [] := List.eq_nil_of_length_eq_zero (Nat.le_zero.mp h1)
    subst this
    cases f2 <;> simp [drainTasksFuel, popMax]
  | succ f1 ih =>
    intro f2 l h1 h2
    cases f2 with
    | zero =>
      have : l = [] := List.eq_nil_of_length_eq_zero (Nat.le_zero.mp h2)
      subst this
      simp [drainTasksFuel, popMax]
    | succ f2 =>
      simp only [drainTasksFuel]
      cases hp : popMax l with
      | none => rfl
      | some br =>
        obtain ⟨b, r⟩ := br
        have hlen := popMax_length l b r hp
        have := ih f2 r (by omega) (by omega)
        simp [this]

theorem drainTasks_nil {P : Type} : drainTasks ([] : List (ScheduledTask P)) = [] := rfl

theorem drainTasks_cons {P : Type} {l : List (ScheduledTask P)} {b : ScheduledTask P}
    {r : List (ScheduledTask P)} (h : popMax l = some (b, r)) :
    drainTasks l = b :: drainTasks r := by
  have hlen := popMax_length l b r h
  unfold drainTasks
  rw [← hlen]
  simp only [drainTasksFuel, h]

theorem drainTasks_eq {P : Type} (l : List (ScheduledTask P)) :
    drainTasks l = match popMax l with
      | none => []
      | some br => br.1 :: drainTasks br.2 := by
  cases hp : popMax l with
  | none =>
    have hnil : l = [] := (popMax_eq_none_iff l).mp hp
    subst hnil
    exact drainTasks_nil
  | some br =>
    obtain ⟨b, r⟩ := br
    exact drainTasks_cons hp

theorem drainTasks_perm_aux {P : Type} :
    ∀ (n : Nat) (l : List (ScheduledTask P)), l.length ≤ n →
      List.Perm (drainTasks l) l := by
  intro n
  induction n with
  | zero =>
    intro l hl
    have : l = [] := List.eq_nil_of_length_eq_zero (Nat.le_zero.mp hl)
    subst this
    simp [drainTasks_nil]
  | succ n ih =>
    intro l hl
    cases hp : popMax l with
    | none =>
      have : l = [] := (popMax_eq_none_iff l).mp hp
      subst this
      simp [drainTasks_nil]
    | some br =>
      obtain ⟨b, r⟩ := br
      have hlen := popMax_length l b r hp
      obtain ⟨l1, l2, hdec, hr, _, _⟩ := popMax_decomp l b r hp
      rw [drainTasks_cons hp]
      have hperm : List.Perm (drainTasks r) r := ih r (by omega)
      have h1 : List.Perm (b :: drainTasks r) (b :: (l1 ++ l2)) := by
        rw [← hr]; exact hperm.cons b
      have h2 : List.Perm (b :: (l1 ++ l2)) (l1 ++ b :: l2) := List.perm_middle.symm
      rw [hdec]
      exact h1.trans h2

theorem drainTasks_perm {P : Type} (l : List (ScheduledTask P)) :
    List.Perm (drainTasks l) l :=
  drainTasks_perm_aux l.length l le_rfl

theorem drainTasks_pairwise_aux {P : Type} :
    ∀ (n : Nat) (l : List (ScheduledTask P)), l.length ≤ n →
      List.Pairwise (fun a b => ¬ taskLt a b) (drainTasks l) := by
  intro n
  induction n with
  | zero =>
    intro l hl
    have : l = [] := List.eq_nil_of_length_eq_zero (Nat.le_zero.mp hl)
    subst this
    simp [drainTasks_nil]
  | succ n ih =>
    intro l hl
    cases hp : popMax l with
    | none =>
      have : l = [] := (popMax_eq_none_iff l).mp hp
      subst this
      simp [drainTasks_nil]
    | some br =>
      obtain ⟨b, r⟩ := br
      have hlen := popMax_length l b r hp
      obtain ⟨l1, l2, _, hr, h1, h2⟩ := popMax_decomp l b r hp
      rw [drainTasks_cons hp]
      refine List.Pairwise.cons ?_ (ih r (by omega))
      intro y hy
      have hyr : y ∈ r := (drainTasks_perm r).mem_iff.mp hy
      rw [hr] at hyr
      rcases List.mem_append.mp hyr with hy1 | hy2
      · exact taskLt_asymm (h1 y hy1)
      · exact h2 y hy2

theorem drainTasks_pairwise {P : Type} (l : List (ScheduledTask P)) :
    List.Pairwise (fun a b => ¬ taskLt a b) (drainTasks l) :=
  drainTasks_pairwise_aux l.length l le_rfl

/-- Draining commutes with filtering: removing some elements never changes
the relative dequeue order of the remaining ones. -/
theorem drainTasks_filter_aux {P : Type} (p : ScheduledTask P → Bool) :
    ∀ (n : Nat) (l : List (ScheduledTask P)), l.length ≤ n →
      drainTasks (l.filter p) = (drainTasks l).filter p := by
  intro n
  induction n with
  | zero =>
    intro l hl
    have : l = [] := List.eq_nil_of_length_eq_zero (Nat.le_zero.mp hl)
    subst this
    simp [drainTasks_nil]
  | succ n ih =>
    intro l hl
    cases hp : popMax l with
    | none =>
      have : l = [] := (popMax_eq_none_iff l).mp hp
      subst this
      simp [drainTasks_nil]
    | some br =>
      obtain ⟨b, r⟩ := br
      have hlen := popMax_length l b r hp
      obtain ⟨l1, l2, hdec, hr, h1, h2⟩ := popMax_decomp l b r hp
      have hrn : r.length ≤ n := by omega
      rw [drainTasks_cons hp]
      by_cases hb : p b = true
      · have hfl : l.filter p = l1.filter p ++ b :: l2.filter p := by
          rw [hdec, List.filter_append, List.filter_cons, if_pos hb]
        have hpop : popMax (l.filter p) = some (b, l1.filter p ++ l2.filter p) := by
          rw [hfl]
          exact popMax_of_decomp (l1.filter p) b (l2.filter p)
            (fun y hy => h1 y (List.mem_of_mem_filter hy))
            (fun y hy => h2 y (List.mem_of_mem_filter hy))
        rw [drainTasks_cons hpop, List.filter_cons, if_pos hb]
        have : l1.filter p ++ l2.filter p = r.filter p := by
          rw [hr, List.filter_append]
        rw [this, ih r hrn]
      · have hb2 : p b = false := Bool.eq_false_iff.mpr hb
        have hfl : l.filter p = r.filter p := by
          rw [hdec, hr, List.filter_append, List.filter_append, List.filter_cons,
            if_neg hb]
        rw [hfl, ih r hrn, List.filter_cons, if_neg hb]

theorem drainTasks_filter {P : Type} (p : ScheduledTask P → Bool)
    (l : List (ScheduledTask P)) :
    drainTasks (l.filter p) = (drainTasks l).filter p :=
  drainTasks_filter_aux p l.length l le_rfl

/-- Dequeue sequence of an `InMemoryQueue`. -/
def dequeueSeq {P : Type} (q : InMemoryQueue P) : List (ScheduledTask P) :=
  drainTasks q.tasks

/-- The drain sequence is exactly what iterating `dequeue` produces. -/
theorem dequeueSeq_spec {P : Type} (q : InMemoryQueue P) :
    dequeueSeq q = match dequeue q with
      | (none, _) => []
      | (some t, q2) => t :: dequeueSeq q2 := by
  unfold dequeueSeq dequeue
  rw [drainTasks_eq]
  cases hp : popMax q.tasks with
  | none => rfl
  | some br => obtain ⟨b, r⟩ := br; rfl

/-! ### ResourcePool (`src/core/resource_pool.rs`), sequential semantics -/

/-- Embedding of `PoolLimits` from `src/core/resource_pool.rs` (`default_timeout` in
milliseconds). -/
structure PoolLimits where
  maxUnits : Nat
  maxQueueDepth : Nat
  defaultTimeout : Nat
deriving DecidableEq, Repr

/-- The pool state touched by `submit`: the `active_units` atomic and the
queue behind its mutex (specialised to the in-memory queue backend). -/
structure PoolState (P : Type) where
  activeUnits : Nat
  queue : InMemoryQueue P
deriving DecidableEq, Repr

/-- Embedding of `ResourcePool::can_start_lockfree`. -/
def canStartLockfree (maxUnits active cost : Nat) : Bool :=
  decide (active + cost ≤ maxUnits)

/-- Embedding of `ResourcePool::try_reserve_capacity`, read sequentially: with no
concurrent writer the weak CAS succeeds on the first iteration, so the loop
reserves exactly when `active + cost ≤ max_units`; the same CAS loop also
appears inline in `try_wake_next_static` and `sync_wake_worker_loop`.
Returns the new value of `active_units` on success. -/
def tryReserveCapacity (maxUnits active cost : Nat) : Option Nat :=
  if active + cost ≤ maxUnits then some (active + cost) else none

/-- Deadline test at the top of `ResourcePool::submit`:
`task.meta.deadline_ms` is `Some(deadline)` and `now_ms > deadline`. -/
def deadlinePassed (meta : TaskMetadata) (nowMs : Nat) : Bool :=
  match meta.deadlineMs with
  | some deadline => decide (nowMs > deadline)
  | none => false

/-- Result of one `submit` call: the returned `Result`, the pool state after
the call, and the task handed to the spawner (execution is spawned exactly
for the `Running` path). -/
structure SubmitOutcome (P : Type) where
  result : Except SchedulerError TaskStatus
  state : PoolState P
  spawned : Option (ScheduledTask P)
deriving Repr

/-- Queue-full check and enqueue at the bottom of `ResourcePool::submit`
(the queue lock is dropped and re-taken around the audit record; under the
sequential reading nothing changes in between). -/
def submitPark {P : Type} (limits : PoolLimits) (st : PoolState P)
    (task : ScheduledTask P) : SubmitOutcome P :=
  if st.queue.tasks.length ≥ limits.maxQueueDepth then
    ⟨.error (.queueFull "max queue depth reached"), st, none⟩
  else
    match enqueue st.queue task with
    | .ok q2 => ⟨.ok .queued, ⟨st.activeUnits, q2⟩, none⟩
    | .error e => ⟨.error e, st, none⟩

/-- Embedding of `ResourcePool::submit`, sequential semantics. -/
def submit {P : Type} (limits : PoolLimits) (st : PoolState P)
    (task : ScheduledTask P) (nowMs : Nat) : SubmitOutcome P :=
  if deadlinePassed task.meta nowMs then
    ⟨.error .deadlineExpired, st, none⟩
  else if canStartLockfree limits.maxUnits st.activeUnits task.meta.cost.units then
    match tryReserveCapacity limits.maxUnits st.activeUnits task.meta.cost.units with
    | some newActive => ⟨.ok .running, ⟨newActive, st.queue⟩, some task⟩
    | none => submitPark limits st task
  else
    submitPark limits st task

/-! ### Capacity accounting (`active_units`) as a state machine

Atomic events on `active_units`: a successful-or-failed CAS reservation
(`submit` fast path, `try_wake_next_static`, `sync_wake_worker_loop`) and a
release (`on_task_finished_static`, `active_units.fetch_sub(task_cost)`).
The multiset of outstanding reservation costs is carried as ghost state; a
release event is constrained to the cost of one outstanding reservation,
which is the precondition stated by the claim (every release in the source
passes the `task_cost` of the completed task's earlier reservation). -/

inductive CapacityEvent where
  | reserve (cost : Nat)
  | release (cost : Nat)
deriving DecidableEq, Repr

structure CapacityState where
  active : Nat
  outstanding : List Nat
deriving DecidableEq, Repr

/-- One atomic step on `active_units`.  A `reserve` that fails the CAS
bound leaves the state unchanged (the task is parked instead); a `release`
whose cost is not outstanding is ignored (the precondition rules it out). -/
def capacityStep (maxUnits : Nat) (s : CapacityState) : CapacityEvent → CapacityState
  | .reserve c =>
    match tryReserveCapacity maxUnits s.active c with
    | some a2 => ⟨a2, c :: s.outstanding⟩
    | none => s
  | .release c =>
    if c ∈ s.outstanding then ⟨s.active - c, s.outstanding.erase c⟩ else s

/-- Run a sequence of capacity events from the initial state
(`AtomicU32::new(0)`, nothing outstanding). -/
def runCapacity (maxUnits : Nat) (events : List CapacityEvent) : CapacityState :=
  events.foldl (capacityStep maxUnits) ⟨0, []⟩

/-- The capacity invariant: `active_units` equals the sum of outstanding
reservation costs (so a release never underflows) and never exceeds
`max_units`. -/
def capacityInv (maxUnits : Nat) (s : CapacityState) : Prop :=
  s.active = s.outstanding.sum ∧ s.active ≤ maxUnits

theorem capacityStep_inv (maxUnits : Nat) (s : CapacityState) (e : CapacityEvent)
    (h : capacityInv maxUnits s) : capacityInv maxUnits (capacityStep maxUnits s e) := by
  obtain ⟨hsum, hle⟩ := h
  cases e with
  | reserve c =>
    simp only [capacityStep, tryReserveCapacity]
    by_cases hc : s.active + c ≤ maxUnits
    · simp only [hc, if_pos]
      exact ⟨by simp [hsum, Nat.add_comm], hc⟩
    · simp only [hc, if_neg, not_false_iff]
      exact ⟨hsum, hle⟩
  | release c =>
    simp only [capacityStep]
    by_cases hc : c ∈ s.outstanding
    · simp only [hc, if_pos]
      have hperm : List.Perm s.outstanding (c :: s.outstanding.erase c) :=
        List.perm_cons_erase hc
      have hsum2 : s.outstanding.sum = c + (s.outstanding.erase c).sum := by
        rw [hperm.sum_eq]; simp
      constructor
      · show s.active - c = (s.outstanding.erase c).sum
        omega
      · show s.active - c ≤ maxUnits
        omega
    · simp only [hc, if_neg, not_false_iff]
      exact ⟨hsum, hle⟩

theorem runCapacity_inv (maxUnits : Nat) (events : List CapacityEvent) :
    capacityInv maxUnits (runCapacity maxUnits events) := by
  have h0 : capacityInv maxUnits ⟨0, []⟩ := ⟨rfl, Nat.zero_le _⟩
  unfold runCapacity
  generalize hs : (⟨0, []⟩ : CapacityState) = s0
  rw [hs] at h0
  clear hs
  induction events generalizing s0 with
  | nil => exact h0
  | cons e es ih => exact ih _ (capacityStep_inv maxUnits s0 e h0)

/-! ### Decimal rendering of task ids

`u64::to_string` (used by `generate_mailbox_key` in
`src/core/worker_pool.rs`) is modelled by Lean's `Nat.repr`, which produces
the same decimal numeral.  The development below characterises `Nat.repr`
by a structurally recursive digit function and proves it injective. -/

/-- Most-significant-first decimal digit characters of `n`. -/
def decChars (n : Nat) : List Char :=
  if h : n < 10 then [Nat.digitChar n]
  else decChars (n / 10) ++ [Nat.digitChar (n % 10)]
termination_by n
decreasing_by exact Nat.div_lt_self (by omega) (by omega)

theorem decChars_lt {n : Nat} (h : n < 10) : decChars n = [Nat.digitChar n] := by
  rw [decChars]
  simp [h]

theorem decChars_ge {n : Nat} (h : ¬ n < 10) :
    decChars n = decChars (n / 10) ++ [Nat.digitChar (n % 10)] := by
  rw [decChars]
  simp [h]

theorem decChars_ne_nil (n : Nat) : decChars n ≠ [] := by
  by_cases h : n < 10
  · simp [decChars_lt h]
  · simp [decChars_ge h]

theorem toDigitsCore_succ (b f n : Nat) (ds : List Char) :
    Nat.toDigitsCore b (f + 1) n ds =
      (if n / b = 0 then Nat.digitChar (n % b) :: ds
       else Nat.toDigitsCore b f (n / b) (Nat.digitChar (n % b) :: ds)) := rfl

theorem toDigitsCore_eq_decChars :
    ∀ (f n : Nat) (ds : List Char), n < f →
      Nat.toDigitsCore 10 f n ds = decChars n ++ ds := by
  intro f
  induction f with
  | zero => intro n ds h; omega
  | succ f ih =>
    intro n ds h
    rw [toDigitsCore_succ]
    by_cases h0 : n / 10 = 0
    · have hn : n < 10 := by omega
      rw [if_pos h0, decChars_lt hn, Nat.mod_eq_of_lt hn]
      rfl
    · have hn : ¬ n < 10 := by omega
      have hdiv : n / 10 < n := Nat.div_lt_self (by omega) (by omega)
      rw [if_neg h0, ih (n / 10) (Nat.digitChar (n % 10) :: ds) (by omega),
        decChars_ge hn]
      simp

theorem natRepr_eq_decChars (n : Nat) : Nat.repr n = (decChars n).asString := by
  have h0 : Nat.repr n = (Nat.toDigitsCore 10 (n + 1) n []).asString := rfl
  rw [h0, toDigitsCore_eq_decChars (n + 1) n [] (by omega)]
  simp

theorem digitChar_inj : ∀ a < 10, ∀ b < 10, Nat.digitChar a = Nat.digitChar b → a = b := by
  decide

theorem asString_inj {l1 l2 : List Char} (h : l1.asString = l2.asString) : l1 = l2 := by
  have h2 := congrArg String.data h
  simpa [List.asString] using h2

theorem decChars_injective : ∀ m n : Nat, decChars m = decChars n → m = n := by
  intro m
  induction m using Nat.strong_induction_on with
  | _ m ih =>
    intro n h
    by_cases hm : m < 10 <;> by_cases hn : n < 10
    · rw [decChars_lt hm, decChars_lt hn] at h
      simp only [List.cons.injEq, and_true] at h
      exact digitChar_inj m hm n hn h
    · rw [decChars_lt hm, decChars_ge hn] at h
      have hlen := congrArg List.length h
      simp only [List.length_cons, List.length_nil, List.length_append] at hlen
      have hnil : decChars (n / 10) = [] := by
        cases hx : decChars (n / 10) with
        | nil => rfl
        | cons c cs => rw [hx] at hlen; simp at hlen
      exact absurd hnil (decChars_ne_nil (n / 10))
    · rw [decChars_ge hm, decChars_lt hn] at h
      have hlen := congrArg List.length h
      simp only [List.length_cons, List.length_nil, List.length_append] at hlen
      have hnil : decChars (m / 10) = [] := by
        cases hx : decChars (m / 10) with
        | nil => rfl
        | cons c cs => rw [hx] at hlen; simp at hlen
      exact absurd hnil (decChars_ne_nil (m / 10))
    · rw [decChars_ge hm, decChars_ge hn] at h
      have h2 := congrArg List.reverse h
      simp only [List.reverse_append, List.reverse_cons, List.reverse_nil,
        List.nil_append, List.singleton_append, List.cons.injEq] at h2
      obtain ⟨hc, hrev⟩ := h2
      have hdivs : decChars (m / 10) = decChars (n / 10) :=
        List.reverse_injective hrev
      have hmdiv : m / 10 < m := Nat.div_lt_self (by omega) (by omega)
      have hdiv : m / 10 = n / 10 := ih (m / 10) hmdiv (n / 10) hdivs
      have hmod : m % 10 = n % 10 :=
        digitChar_inj (m % 10) (Nat.mod_lt m (by omega)) (n % 10)
          (Nat.mod_lt n (by omega)) hc
      omega

theorem natRepr_injective {m n : Nat} (h : Nat.repr m = Nat.repr n) : m = n := by
  rw [natRepr_eq_decChars, natRepr_eq_decChars] at h
  exact decChars_injective m n (asString_inj h)

/-! ### In-memory mailbox (`src/infra/mailbox/memory.rs`) -/

/-- Embedding of `MailboxMessage` from `src/infra/mailbox/memory.rs`. -/
structure MailboxMessage (T : Type) where
  status : TaskStatus
  payload : Option T
  createdAtMs : Nat
deriving Repr

/-- Embedding of `InMemoryMailbox`: the `HashMap<MailboxKey, Vec<MailboxMessage>>` is
modelled as a total function whose default is the empty list
(`unwrap_or_default` on a missing key). -/
def InMemoryMailbox (T : Type) : Type := MailboxKey → List (MailboxMessage T)

/-- Embedding of `InMemoryMailbox::new()`. -/
def emptyMailbox (T : Type) : InMemoryMailbox T := fun _ => []

/-- Embedding of `InMemoryMailbox::deliver`: append one message stamped with the current
clock (`crate::util::clock::now_ms()`, passed here as `nowMs`); always `Ok`. -/
def deliver {T : Type} (mb : InMemoryMailbox T) (key : MailboxKey)
    (status : TaskStatus) (payload : Option T) (nowMs : Nat) :
    Except SchedulerError (InMemoryMailbox T) :=
  .ok (fun k => if k = key then mb k ++ [⟨status, payload, nowMs⟩] else mb k)

/-- Timestamp filter of `InMemoryMailbox::fetch`:
`since_ms.map(|s| m.created_at_ms >= s).unwrap_or(true)`. -/
def sinceOk {T : Type} (sinceMs : Option Nat) (m : MailboxMessage T) : Bool :=
  match sinceMs with
  | some s => decide (m.createdAtMs ≥ s)
  | none => true

/-- Embedding of `InMemoryMailbox::fetch`: non-destructive (takes the state and returns
only the message list), filter then take. -/
def fetch {T : Type} (mb : InMemoryMailbox T) (key : MailboxKey)
    (sinceMs : Option Nat) (limit : Nat) : List (MailboxMessage T) :=
  ((mb key).filter (sinceOk sinceMs)).take limit

/-! ### WorkerPool (`src/core/worker_pool.rs`, `src/core/worker_pool/native.rs`) -/

/-- Embedding of `PoolError` from `src/core/worker_pool.rs`. -/
inductive PoolError where
  | queueFull
  | insufficientCapacity (requested available : Nat)
  | timeout
  | resultNotFound
  | poolShutdown
  | invalidConfig (msg : String)
  | internal (msg : String)
deriving DecidableEq, Repr

/-- Embedding of `ResultState` from `src/core/worker_pool/native.rs`. -/
inductive ResultState where
  | pending
  | ready
deriving DecidableEq, Repr

/-- Embedding of `ResultEntry` from `src/core/worker_pool/native.rs`. -/
structure ResultEntry (R : Type) where
  result : Option R
  state : ResultState

/-- Embedding of `ResultStorage.entries`: the `HashMap<String, ...>` as a partial map. -/
def ResultMap (R : Type) : Type := String → Option (ResultEntry R)

/-- Point update of a `ResultMap` (insert with `some`, remove with `none`). -/
def mapUpdate {R : Type} (st : ResultMap R) (k : String) (v : Option (ResultEntry R)) :
    ResultMap R :=
  fun k2 => if k2 = k then v else st k2

/-- Embedding of `generate_mailbox_key` from `src/core/worker_pool.rs`. -/
def generateMailboxKey (taskId : Nat) : MailboxKey :=
  ⟨"worker_pool", none, some (Nat.repr taskId)⟩

/-- Embedding of `mailbox_key_to_string` from `src/core/worker_pool.rs`. -/
def mailboxKeyToString (key : MailboxKey) : String :=
  key.tenant ++ ":" ++ key.sessionId.getD "unknown"

/-- Embedding of `ResultStorage::wait_for_result`, sequential semantics.  The condvar
wait is abstracted by the oracle `waitStore`: `some r` means a worker's
`ResultStorage::store` ran during the wait window and stored `r` (the wait
then wakes with the entry `Ready`); `none` covers both a timed-out wait and
a wake with the entry still `Pending`, which the source maps to `Timeout`.
`Option::take` empties the entry's `result` in place. -/
def waitForResult {R : Type} (st : ResultMap R) (keyStr : String)
    (waitStore : Option R) : Except PoolError R × ResultMap R :=
  match st keyStr with
  | none => (.error .resultNotFound, st)
  | some entry =>
    if entry.state = ResultState.ready then
      match entry.result with
      | some r => (.ok r, mapUpdate st keyStr (some ⟨none, .ready⟩))
      | none => (.error .resultNotFound, st)
    else
      match waitStore with
      | some r => (.ok r, mapUpdate st keyStr (some ⟨none, .ready⟩))
      | none => (.error .timeout, st)

/-- Embedding of `WorkerPool::retrieve` (blocking API): `wait_for_result` followed by an
unconditional `ResultStorage::remove` of the key's slot. -/
def wpRetrieve {R : Type} (st : ResultMap R) (key : MailboxKey)
    (waitStore : Option R) : Except PoolError R × ResultMap R :=
  let keyStr := mailboxKeyToString key
  let resPair := waitForResult st keyStr waitStore
  (resPair.1, mapUpdate resPair.2 keyStr none)

/-- Worker-pool state touched by `submit`: the `shutdown` flag, the
`task_id_counter`, the result storage, and the bounded task channel
(represented by its occupancy; the sender being dropped at shutdown is
subsumed by the `shutdown` flag, which is always set first). -/
structure WorkerPoolState (R : Type) where
  shutdown : Bool
  taskIdCounter : Nat
  results : ResultMap R
  queueLen : Nat
  submitted : Nat
  queued : Nat

/-- Embedding of `WorkerPool::submit` from `src/core/worker_pool/native.rs`:
shutdown check, `fetch_add` on the task id counter, key derivation, slot
creation, then non-blocking `try_send` on the bounded channel of capacity
`max_queue_depth` (on a full channel the slot is removed again and
`QueueFull` is returned). -/
def wpSubmit {R : Type} (maxQueueDepth : Nat) (st : WorkerPoolState R) :
    Except PoolError MailboxKey × WorkerPoolState R :=
  if st.shutdown then
    (.error .poolShutdown, st)
  else
    let taskId := st.taskIdCounter
    let key := generateMailboxKey taskId
    let keyStr := mailboxKeyToString key
    let results1 := mapUpdate st.results keyStr (some ⟨none, .pending⟩)
    if st.queueLen ≥ maxQueueDepth then
      (.error .queueFull,
        { st with taskIdCounter := taskId + 1, results := mapUpdate results1 keyStr none })
    else
      (.ok key,
        { st with taskIdCounter := taskId + 1, results := results1,
                  queueLen := st.queueLen + 1,
                  submitted := st.submitted + 1, queued := st.queued + 1 })

/-! ### Claim theorems -/

/-- C1: For every sequence of capacity operations (CAS reservations from
`submit`'s fast path and the wake loops, and releases from
`on_task_finished_static` that subtract the cost of one earlier successful
reservation), `active_units` never exceeds `max_units`, and it always
equals the sum of the outstanding reservation costs — in particular every
release subtracts a cost that is at most `active_units`, so the counter
never goes negative. -/
theorem claim_C1_active_units_bounded (maxUnits : Nat) (events : List CapacityEvent) :
    (runCapacity maxUnits events).active ≤ maxUnits ∧
      (runCapacity maxUnits events).active =
        (runCapacity maxUnits events).outstanding.sum := by
  have h := runCapacity_inv maxUnits events
  exact ⟨h.2, h.1⟩

/-- C3: for every queue state, the sequence returned by successive
`dequeue()` calls is in non-increasing priority order, and within equal
priority in non-decreasing `created_at_ms` order (FIFO). -/
theorem claim_C3_dequeue_order {P : Type} (q : InMemoryQueue P) :
    List.Pairwise (fun a b =>
      priorityValue b.meta.priority ≤ priorityValue a.meta.priority ∧
        (priorityValue a.meta.priority = priorityValue b.meta.priority →
          a.meta.createdAtMs ≤ b.meta.createdAtMs)) (dequeueSeq q) := by
  have h := drainTasks_pairwise q.tasks
  refine h.imp ?_
  intro a b hab
  simp only [taskLt] at hab
  push_neg at hab
  exact hab

/-- C5 counterexample: `prune_expired` keeps only tasks with
`deadline_ms > now` (`src/infra/queue/memory.rs` line 95), so a task whose
deadline is exactly `now` (deadline 5, pruned at `now = 5`) is removed and
counted, while the claim says every task with `deadline_ms ≥ now`
survives. -/
theorem claim_C5_counterexample :
    (pruneExpired
        (⟨100, [⟨⟨1, none, .normal, ⟨.cpu, 1⟩, some 5, 0⟩, ()⟩]⟩ : InMemoryQueue Unit)
        5).1 = 1 ∧
      (pruneExpired
        (⟨100, [⟨⟨1, none, .normal, ⟨.cpu, 1⟩, some 5, 0⟩, ()⟩]⟩ : InMemoryQueue Unit)
        5).2.tasks = [] := by
  exact ⟨rfl, rfl⟩

/-- C5 amended: `prune_expired(now)` removes exactly those tasks with
`deadline_ms.is_some()` and `deadline_ms ≤ now` (a deadline exactly equal
to `now` is removed, not kept; survivors are the tasks with no deadline or
with `deadline_ms > now`), returns the number of tasks removed, and leaves
the relative dequeue order of the survivors unchanged. -/
theorem claim_C5_prune_amended {P : Type} (q : InMemoryQueue P) (nowMs : Nat) :
    (pruneExpired q nowMs).2.tasks = q.tasks.filter (keepTask nowMs) ∧
    (pruneExpired q nowMs).2.maxDepth = q.maxDepth ∧
    (pruneExpired q nowMs).1 + (pruneExpired q nowMs).2.tasks.length =
      q.tasks.length ∧
    (∀ t : ScheduledTask P, keepTask nowMs t = true ↔
      (t.meta.deadlineMs = none ∨ ∃ d, t.meta.deadlineMs = some d ∧ nowMs < d)) ∧
    dequeueSeq (pruneExpired q nowMs).2 = (dequeueSeq q).filter (keepTask nowMs) := by
  refine ⟨rfl, rfl, ?_, ?_, ?_⟩
  · have hle := List.length_filter_le (keepTask nowMs) q.tasks
    show q.tasks.length - (q.tasks.filter (keepTask nowMs)).length +
      (q.tasks.filter (keepTask nowMs)).length = q.tasks.length
    omega
  · intro t
    cases hd : t.meta.deadlineMs with
    | none => simp [keepTask, hd]
    | some d => simp [keepTask, hd]
  · show drainTasks (q.tasks.filter (keepTask nowMs)) = _
    exact drainTasks_filter (keepTask nowMs) q.tasks

/-- C5 witness: instantiation of the amended claim on a concrete queue
(one task with no deadline, one expired, one live), with the filter and
drain evaluated. -/
theorem claim_C5_witness :
    dequeueSeq (pruneExpired
      (⟨10, [⟨⟨1, none, .normal, ⟨.cpu, 1⟩, none, 3⟩, ()⟩,
             ⟨⟨2, none, .high, ⟨.cpu, 1⟩, some 4, 1⟩, ()⟩,
             ⟨⟨3, none, .low, ⟨.cpu, 1⟩, some 9, 2⟩, ()⟩]⟩ : InMemoryQueue Unit)
      5).2 =
      (dequeueSeq (⟨10, [⟨⟨1, none, .normal, ⟨.cpu, 1⟩, none, 3⟩, ()⟩,
             ⟨⟨2, none, .high, ⟨.cpu, 1⟩, some 4, 1⟩, ()⟩,
             ⟨⟨3, none, .low, ⟨.cpu, 1⟩, some 9, 2⟩, ()⟩]⟩ : InMemoryQueue Unit)).filter
        (keepTask 5) :=
  (claim_C5_prune_amended
    (⟨10, [⟨⟨1, none, .normal, ⟨.cpu, 1⟩, none, 3⟩, ()⟩,
           ⟨⟨2, none, .high, ⟨.cpu, 1⟩, some 4, 1⟩, ()⟩,
           ⟨⟨3, none, .low, ⟨.cpu, 1⟩, some 9, 2⟩, ()⟩]⟩ : InMemoryQueue Unit)
    5).2.2.2.2

/-- Exhaustive outcomes of `submit` when the deadline has not passed:
either the fast path starts the task, or it is enqueued, or the queue-full
rejection fires (in `submit` itself or inside `InMemoryQueue::enqueue`). -/
theorem submit_cases {P : Type} (limits : PoolLimits) (st : PoolState P)
    (task : ScheduledTask P) (nowMs : Nat)
    (hdl : deadlinePassed task.meta nowMs = false) :
    submit limits st task nowMs =
        ⟨.ok .running, ⟨st.activeUnits + task.meta.cost.units, st.queue⟩, some task⟩ ∨
      submit limits st task nowMs =
        ⟨.ok .queued, ⟨st.activeUnits, ⟨st.queue.maxDepth, st.queue.tasks ++ [task]⟩⟩, none⟩ ∨
      submit limits st task nowMs =
        ⟨.error (.queueFull "max queue depth reached"), st, none⟩ := by
  unfold submit
  rw [hdl]
  simp only [Bool.false_eq_true, if_false]
  by_cases hcap : st.activeUnits + task.meta.cost.units ≤ limits.maxUnits
  · left
    simp [canStartLockfree, tryReserveCapacity, hcap]
  · have hpark : submitPark limits st task =
        ⟨.ok .queued, ⟨st.activeUnits, ⟨st.queue.maxDepth, st.queue.tasks ++ [task]⟩⟩, none⟩ ∨
        submitPark limits st task =
        ⟨.error (.queueFull "max queue depth reached"), st, none⟩ := by
      unfold submitPark
      by_cases hfull : st.queue.tasks.length ≥ limits.maxQueueDepth
      · right
        simp [hfull]
      · rw [if_neg hfull]
        unfold enqueue
        by_cases hq : st.queue.tasks.length ≥ st.queue.maxDepth
        · right
          simp [hq]
        · left
          simp [hq]
    simp only [canStartLockfree, hcap, decide_eq_true_eq, if_neg, decide_eq_false_iff_not,
      not_false_iff]
    exact Or.inr hpark

/-- C2: when the deadline has not passed and the queue's configured depth
matches the pool limit (as the builder wires it): if
`active_units + cost.units ≤ max_units` then `submit` reserves exactly
`cost.units`, hands the task to the spawner, and returns `Ok(Running)`;
otherwise, with the queue already at `max_queue_depth` it returns
`Err(QueueFull)` leaving the state unchanged, and with room in the queue it
appends the task (queue length + 1), leaves `active_units` unchanged, and
returns `Ok(Queued)`. -/
theorem claim_C2_submit_admission {P : Type} (limits : PoolLimits) (st : PoolState P)
    (task : ScheduledTask P) (nowMs : Nat)
    (hdl : deadlinePassed task.meta nowMs = false)
    (hdepth : st.queue.maxDepth = limits.maxQueueDepth) :
    (st.activeUnits + task.meta.cost.units ≤ limits.maxUnits →
      submit limits st task nowMs =
        ⟨.ok .running, ⟨st.activeUnits + task.meta.cost.units, st.queue⟩, some task⟩) ∧
    (limits.maxUnits < st.activeUnits + task.meta.cost.units →
      limits.maxQueueDepth ≤ st.queue.tasks.length →
      submit limits st task nowMs =
        ⟨.error (.queueFull "max queue depth reached"), st, none⟩) ∧
    (limits.maxUnits < st.activeUnits + task.meta.cost.units →
      st.queue.tasks.length < limits.maxQueueDepth →
      submit limits st task nowMs =
        ⟨.ok .queued, ⟨st.activeUnits, ⟨st.queue.maxDepth, st.queue.tasks ++ [task]⟩⟩, none⟩) := by
  refine ⟨?_, ?_, ?_⟩
  · intro hcap
    unfold submit
    rw [hdl]
    simp [canStartLockfree, tryReserveCapacity, hcap]
  · intro hcap hfull
    unfold submit
    rw [hdl]
    have hns : ¬ (st.activeUnits + task.meta.cost.units ≤ limits.maxUnits) := by omega
    simp only [Bool.false_eq_true, if_false, canStartLockfree]
    rw [if_neg (by simpa using hns)]
    unfold submitPark
    rw [if_pos hfull]
  · intro hcap hroom
    unfold submit
    rw [hdl]
    have hns : ¬ (st.activeUnits + task.meta.cost.units ≤ limits.maxUnits) := by omega
    simp only [Bool.false_eq_true, if_false, canStartLockfree]
    rw [if_neg (by simpa using hns)]
    unfold submitPark
    rw [if_neg (by omega)]
    unfold enqueue
    rw [if_neg (by omega)]

/-- C2 witness: a cost-5 task on an idle 10-unit pool starts `Running` with
`active_units` raised to 5; the hypotheses are discharged on concrete
values. -/
theorem claim_C2_witness :
    submit (⟨10, 2, 0⟩ : PoolLimits) (⟨0, ⟨2, []⟩⟩ : PoolState Unit)
        ⟨⟨1, none, .normal, ⟨.cpu, 5⟩, none, 0⟩, ()⟩ 0 =
      ⟨.ok .running, ⟨5, ⟨2, []⟩⟩, some ⟨⟨1, none, .normal, ⟨.cpu, 5⟩, none, 0⟩, ()⟩⟩ :=
  (claim_C2_submit_admission (⟨10, 2, 0⟩ : PoolLimits) (⟨0, ⟨2, []⟩⟩ : PoolState Unit)
    ⟨⟨1, none, .normal, ⟨.cpu, 5⟩, none, 0⟩, ()⟩ 0 (by decide) (by decide)).1 (by decide)

/-- C4: `submit` returns `Err(DeadlineExpired)` exactly when the task has a
deadline strictly before `now_ms`; in that case the pool state (queue and
`active_units`) is unchanged and nothing is handed to the spawner, so no
mailbox message can ever be produced for the task. -/
theorem claim_C4_deadline_expired {P : Type} (limits : PoolLimits) (st : PoolState P)
    (task : ScheduledTask P) (nowMs : Nat) :
    ((submit limits st task nowMs).result = .error .deadlineExpired ↔
      ∃ d, task.meta.deadlineMs = some d ∧ d < nowMs) ∧
    ((∃ d, task.meta.deadlineMs = some d ∧ d < nowMs) →
      submit limits st task nowMs = ⟨.error .deadlineExpired, st, none⟩) := by
  by_cases hd : deadlinePassed task.meta nowMs
  · have hsub : submit limits st task nowMs = ⟨.error .deadlineExpired, st, none⟩ := by
      unfold submit
      rw [hd]
      simp
    have hdl : ∃ d, task.meta.deadlineMs = some d ∧ d < nowMs := by
      unfold deadlinePassed at hd
      cases hdm : task.meta.deadlineMs with
      | none => rw [hdm] at hd; simp at hd
      | some d =>
        rw [hdm] at hd
        simp only [decide_eq_true_eq, gt_iff_lt] at hd
        exact ⟨d, rfl, hd⟩
    rw [hsub]
    exact ⟨by simpa using hdl, fun _ => rfl⟩
  · have hd2 : deadlinePassed task.meta nowMs = false := by simpa using hd
    have hnd : ¬ ∃ d, task.meta.deadlineMs = some d ∧ d < nowMs := by
      unfold deadlinePassed at hd2
      cases hdm : task.meta.deadlineMs with
      | none => simp [hdm]
      | some d =>
        rw [hdm] at hd2
        simp only [decide_eq_false_iff_not, gt_iff_lt, not_lt] at hd2
        simp only [hdm, Option.some.injEq, not_exists]
        intro d2 hd3
        omega
    constructor
    · rcases submit_cases limits st task nowMs hd2 with hs | hs | hs <;>
        rw [hs] <;> simp [hnd]
    · intro hc
      exact absurd hc hnd

/-- C4 witness: a task whose deadline (5) is before `now_ms = 10` is
rejected with `DeadlineExpired`, the state is returned unchanged, and
nothing is spawned. -/
theorem claim_C4_witness :
    submit (⟨10, 2, 0⟩ : PoolLimits) (⟨0, ⟨2, []⟩⟩ : PoolState Unit)
        ⟨⟨1, none, .normal, ⟨.cpu, 1⟩, some 5, 0⟩, ()⟩ 10 =
      ⟨.error .deadlineExpired, ⟨0, ⟨2, []⟩⟩, none⟩ :=
  (claim_C4_deadline_expired (⟨10, 2, 0⟩ : PoolLimits) (⟨0, ⟨2, []⟩⟩ : PoolState Unit)
    ⟨⟨1, none, .normal, ⟨.cpu, 1⟩, some 5, 0⟩, ()⟩ 10).2 ⟨5, rfl, by decide⟩

/-- C6 counterexample: a task of cost 20 on a pool with `max_units = 10`
(deadline not passed, queue empty) is not rejected: `submit` parks it and
returns `Ok(Queued)`, so the claimed `CapacityExceeded` error is never
produced (in the sources that variant only appears in
`src/core/error.rs` and a display test). -/
theorem claim_C6_counterexample :
    submit (⟨10, 100, 0⟩ : PoolLimits) (⟨0, ⟨100, []⟩⟩ : PoolState Unit)
        ⟨⟨1, none, .normal, ⟨.cpu, 20⟩, none, 0⟩, ()⟩ 0 =
      ⟨.ok .queued, ⟨0, ⟨100, [⟨⟨1, none, .normal, ⟨.cpu, 20⟩, none, 0⟩, ()⟩]⟩⟩, none⟩ ∧
    (submit (⟨10, 100, 0⟩ : PoolLimits) (⟨0, ⟨100, []⟩⟩ : PoolState Unit)
        ⟨⟨1, none, .normal, ⟨.cpu, 20⟩, none, 0⟩, ()⟩ 0).result ≠
      .error .capacityExceeded := by
  constructor
  · rfl
  · intro h
    have h2 : Except.ok TaskStatus.queued =
        Except.error SchedulerError.capacityExceeded := h
    exact Except.noConfusion h2

/-- C6 amended: `submit` never returns `CapacityExceeded`; a task whose
cost alone exceeds `max_units` (and whose deadline has not passed) is
treated like any other task that does not fit right now — it is enqueued
and `Ok(Queued)` is returned when the queue has room, and `Err(QueueFull)`
is returned when it does not. -/
theorem claim_C6_oversized_parked {P : Type} (limits : PoolLimits) (st : PoolState P)
    (task : ScheduledTask P) (nowMs : Nat)
    (hcost : limits.maxUnits < task.meta.cost.units)
    (hdl : deadlinePassed task.meta nowMs = false)
    (hdepth : st.queue.maxDepth = limits.maxQueueDepth) :
    (submit limits st task nowMs).result ≠ .error .capacityExceeded ∧
    (st.queue.tasks.length < limits.maxQueueDepth →
      submit limits st task nowMs =
        ⟨.ok .queued, ⟨st.activeUnits, ⟨st.queue.maxDepth, st.queue.tasks ++ [task]⟩⟩, none⟩) ∧
    (limits.maxQueueDepth ≤ st.queue.tasks.length →
      submit limits st task nowMs =
        ⟨.error (.queueFull "max queue depth reached"), st, none⟩) := by
  have hcap : limits.maxUnits < st.activeUnits + task.meta.cost.units := by omega
  refine ⟨?_, ?_, ?_⟩
  · rcases submit_cases limits st task nowMs hdl with hs | hs | hs <;> rw [hs] <;> simp
  · intro hroom
    have hns : ¬ (st.activeUnits + task.meta.cost.units ≤ limits.maxUnits) := by omega
    unfold submit
    rw [hdl]
    simp only [Bool.false_eq_true, if_false, canStartLockfree]
    rw [if_neg (by simpa using hns)]
    unfold submitPark
    rw [if_neg (by omega)]
    unfold enqueue
    rw [if_neg (by omega)]
  · intro hfull
    have hns : ¬ (st.activeUnits + task.meta.cost.units ≤ limits.maxUnits) := by omega
    unfold submit
    rw [hdl]
    simp only [Bool.false_eq_true, if_false, canStartLockfree]
    rw [if_neg (by simpa using hns)]
    unfold submitPark
    rw [if_pos hfull]

/-- C6 witness: the amended claim applied to the concrete oversized task,
showing the `Queued` outcome on a queue with room. -/
theorem claim_C6_witness :
    submit (⟨10, 100, 0⟩ : PoolLimits) (⟨7, ⟨100, []⟩⟩ : PoolState Unit)
        ⟨⟨2, none, .high, ⟨.gpuVram, 11⟩, none, 0⟩, ()⟩ 0 =
      ⟨.ok .queued, ⟨7, ⟨100, [⟨⟨2, none, .high, ⟨.gpuVram, 11⟩, none, 0⟩, ()⟩]⟩⟩, none⟩ :=
  (claim_C6_oversized_parked (⟨10, 100, 0⟩ : PoolLimits) (⟨7, ⟨100, []⟩⟩ : PoolState Unit)
    ⟨⟨2, none, .high, ⟨.gpuVram, 11⟩, none, 0⟩, ()⟩ 0 (by decide) (by decide)
    (by decide)).2.1 (by decide)

/-- C10: a task with `cost.units = 0` whose deadline has not passed is
always admitted immediately: under the pool invariant
`active_units ≤ max_units` (including `active_units = max_units`) the
reservation check `active + 0 ≤ max_units` holds, so `submit` returns
`Ok(Running)` with `active_units` unchanged and the task handed to the
spawner — it is never parked or rejected. -/
theorem claim_C10_zero_cost_runs {P : Type} (limits : PoolLimits) (st : PoolState P)
    (task : ScheduledTask P) (nowMs : Nat)
    (hzero : task.meta.cost.units = 0)
    (hdl : deadlinePassed task.meta nowMs = false)
    (hinv : st.activeUnits ≤ limits.maxUnits) :
    submit limits st task nowMs = ⟨.ok .running, ⟨st.activeUnits, st.queue⟩, some task⟩ := by
  have hcap : st.activeUnits + task.meta.cost.units ≤ limits.maxUnits := by omega
  unfold submit
  rw [hdl]
  simp [canStartLockfree, tryReserveCapacity, hcap, hzero, hinv]

/-- C10 witness: a zero-cost task on a pool already saturated at
`active_units = max_units = 10` still starts `Running`. -/
theorem claim_C10_witness :
    submit (⟨10, 5, 0⟩ : PoolLimits) (⟨10, ⟨5, []⟩⟩ : PoolState Unit)
        ⟨⟨3, none, .critical, ⟨.cpu, 0⟩, none, 0⟩, ()⟩ 0 =
      ⟨.ok .running, ⟨10, ⟨5, []⟩⟩, some ⟨⟨3, none, .critical, ⟨.cpu, 0⟩, none, 0⟩, ()⟩⟩ :=
  claim_C10_zero_cost_runs (⟨10, 5, 0⟩ : PoolLimits) (⟨10, ⟨5, []⟩⟩ : PoolState Unit)
    ⟨⟨3, none, .critical, ⟨.cpu, 0⟩, none, 0⟩, ()⟩ 0 (by decide) (by decide) (by decide)

/-- C7: `WorkerPool::retrieve` returns a stored result at most once: any
retrieve removes the key's slot on every return path, a retrieve after that
returns `ResultNotFound` (hence `Timeout` or `ResultNotFound` as claimed),
and a retrieve for a key whose slot was never created returns
`ResultNotFound`.  The oracle `w` ranges over everything a concurrent
worker may do during the condvar wait. -/
theorem claim_C7_retrieve_at_most_once {R : Type} (st : ResultMap R) (key : MailboxKey)
    (w : Option R) :
    (wpRetrieve st key w).2 (mailboxKeyToString key) = none ∧
    (∀ w2 : Option R,
      (wpRetrieve (wpRetrieve st key w).2 key w2).1 = .error .resultNotFound ∨
        (wpRetrieve (wpRetrieve st key w).2 key w2).1 = .error .timeout) ∧
    (st (mailboxKeyToString key) = none →
      (wpRetrieve st key w).1 = .error .resultNotFound) := by
  have hgone : (wpRetrieve st key w).2 (mailboxKeyToString key) = none := by
    simp [wpRetrieve, mapUpdate]
  have hmiss : ∀ (st1 : ResultMap R), st1 (mailboxKeyToString key) = none →
      ∀ w2 : Option R, (wpRetrieve st1 key w2).1 = .error .resultNotFound := by
    intro st1 h0 w2
    simp [wpRetrieve, waitForResult, h0]
  exact ⟨hgone, fun w2 => Or.inl (hmiss _ hgone w2), fun h0 => hmiss st h0 w⟩

/-- C7 witness: a slot holding result 42 is consumed by the first retrieve;
the second retrieve on the same key finds the slot removed. -/
theorem claim_C7_witness :
    (wpRetrieve
        ((fun k => if k = "worker_pool:7" then some ⟨some 42, .ready⟩ else none) :
          ResultMap Nat)
        (generateMailboxKey 7) none).1 = .ok 42 ∧
    ((wpRetrieve
        (wpRetrieve
          ((fun k => if k = "worker_pool:7" then some ⟨some 42, .ready⟩ else none) :
            ResultMap Nat)
          (generateMailboxKey 7) none).2
        (generateMailboxKey 7) none).1 = .error .resultNotFound ∨
      (wpRetrieve
        (wpRetrieve
          ((fun k => if k = "worker_pool:7" then some ⟨some 42, .ready⟩ else none) :
            ResultMap Nat)
          (generateMailboxKey 7) none).2
        (generateMailboxKey 7) none).1 = .error .timeout) :=
  ⟨rfl,
    (claim_C7_retrieve_at_most_once
      ((fun k => if k = "worker_pool:7" then some ⟨some 42, .ready⟩ else none) :
        ResultMap Nat)
      (generateMailboxKey 7) none).2.1 none⟩

/-- C8: for the in-memory mailbox, `deliver` always succeeds and appends
exactly one message for the given key (other keys untouched); `fetch`
reads non-destructively, returns at most `limit` messages in delivery
order (a sublist of the key's log), every returned message passes the
`created_at_ms ≥ since_ms` filter, all qualifying messages are returned
when they number at most `limit`, and in general `fetch` returns exactly
the FIRST `min(limit, count)` qualifying messages: it equals the
`limit`-long take of the qualifying sublist, its length is
`min limit count`, and it is an initial segment of the qualifying
sublist (some `rest` completes it to the whole).  A key never delivered
to yields the empty list. -/
theorem claim_C8_mailbox {T : Type} (mb : InMemoryMailbox T) (key : MailboxKey)
    (status : TaskStatus) (payload : Option T) (nowMs : Nat)
    (sinceMs : Option Nat) (limit : Nat) :
    (∃ mb2, deliver mb key status payload nowMs = .ok mb2 ∧
      mb2 key = mb key ++ [⟨status, payload, nowMs⟩] ∧
      ∀ k2, k2 ≠ key → mb2 k2 = mb k2) ∧
    (fetch mb key sinceMs limit).length ≤ limit ∧
    List.Sublist (fetch mb key sinceMs limit) (mb key) ∧
    (∀ m ∈ fetch mb key sinceMs limit, sinceOk sinceMs m = true) ∧
    (((mb key).filter (sinceOk sinceMs)).length ≤ limit →
      fetch mb key sinceMs limit = (mb key).filter (sinceOk sinceMs)) ∧
    fetch mb key sinceMs limit = ((mb key).filter (sinceOk sinceMs)).take limit ∧
    (fetch mb key sinceMs limit).length =
      min limit ((mb key).filter (sinceOk sinceMs)).length ∧
    (∃ rest, fetch mb key sinceMs limit ++ rest = (mb key).filter (sinceOk sinceMs)) ∧
    (mb key = [] → fetch mb key sinceMs limit = []) := by
  refine ⟨⟨_, rfl, by simp, fun k2 hk => by simp [hk]⟩, ?_, ?_, ?_, ?_, rfl, ?_, ?_, ?_⟩
  · show (((mb key).filter (sinceOk sinceMs)).take limit).length ≤ limit
    rw [List.length_take]
    omega
  · exact (List.take_sublist _ _).trans (List.filter_sublist _)
  · intro m hm
    exact List.of_mem_filter (List.mem_of_mem_take hm)
  · intro hlen
    exact List.take_of_length_le hlen
  · show (((mb key).filter (sinceOk sinceMs)).take limit).length =
      min limit ((mb key).filter (sinceOk sinceMs)).length
    exact List.length_take limit _
  · exact ⟨((mb key).filter (sinceOk sinceMs)).drop limit,
      List.take_append_drop limit _⟩
  · intro h0
    show (((mb key).filter (sinceOk sinceMs)).take limit) = []
    rw [h0]
    simp

/-- C8 witness: delivering to an empty mailbox and fetching it back; the
never-delivered-key clause is discharged on the empty mailbox. -/
theorem claim_C8_witness :
    fetch (emptyMailbox Nat) ⟨"t", none, some "s"⟩ (some 3) 5 = [] :=
  (claim_C8_mailbox (emptyMailbox Nat) ⟨"t", none, some "s"⟩ .completed (some 1) 7
    (some 3) 5).2.2.2.2.2.2.2.2 rfl

theorem wpSubmit_ok {R : Type} {d : Nat} {st : WorkerPoolState R} {k : MailboxKey}
    (h : (wpSubmit d st).1 = .ok k) :
    st.shutdown = false ∧ k = generateMailboxKey st.taskIdCounter ∧
    (wpSubmit d st).2.taskIdCounter = st.taskIdCounter + 1 := by
  by_cases hs : st.shutdown
  · simp [wpSubmit, hs] at h
  · have hs2 : st.shutdown = false := by simpa using hs
    by_cases hq : st.queueLen ≥ d
    · simp [wpSubmit, hs2, hq] at h
    · refine ⟨hs2, ?_, ?_⟩
      · simp [wpSubmit, hs2, hq] at h
        exact h.symm
      · simp [wpSubmit, hs2, hq]

theorem generateMailboxKey_inj {i j : Nat}
    (h : generateMailboxKey i = generateMailboxKey j) : i = j := by
  simp only [generateMailboxKey, MailboxKey.mk.injEq, Option.some.injEq, true_and] at h
  exact natRepr_injective h

theorem mailboxKeyToString_gen_inj {i j : Nat}
    (h : mailboxKeyToString (generateMailboxKey i) =
      mailboxKeyToString (generateMailboxKey j)) : i = j := by
  simp only [mailboxKeyToString, generateMailboxKey, Option.getD_some] at h
  have hd := congrArg String.data h
  simp only [String.data_append] at hd
  have h2 : (Nat.repr i).data = (Nat.repr j).data := List.append_cancel_left hd
  have h3 : Nat.repr i = Nat.repr j := by
    calc Nat.repr i = String.mk (Nat.repr i).data := rfl
      _ = String.mk (Nat.repr j).data := by rw [h2]
      _ = Nat.repr j := rfl
  exact natRepr_injective h3

/-- C9: any two successful `WorkerPool::submit` calls made from states with
different `task_id_counter` values (the counter is bumped by exactly one on
every non-shutdown call, so two distinct calls on the same pool always
differ) return distinct `MailboxKey`s: each key has tenant
`"worker_pool"`, no user id, and a session id equal to the decimal string
of the allocated task id, and even the derived stable string forms are
distinct. -/
theorem claim_C9_unique_keys {R : Type} (d : Nat) (st1 st2 : WorkerPoolState R)
    (k1 k2 : MailboxKey)
    (h1 : (wpSubmit d st1).1 = .ok k1)
    (h2 : (wpSubmit d st2).1 = .ok k2)
    (hne : st1.taskIdCounter ≠ st2.taskIdCounter) :
    k1.tenant = "worker_pool" ∧ k1.userId = none ∧
    k1.sessionId = some (Nat.repr st1.taskIdCounter) ∧
    (wpSubmit d st1).2.taskIdCounter = st1.taskIdCounter + 1 ∧
    k1 ≠ k2 ∧ mailboxKeyToString k1 ≠ mailboxKeyToString k2 := by
  obtain ⟨_, hk1, hinc1⟩ := wpSubmit_ok h1
  obtain ⟨_, hk2, _⟩ := wpSubmit_ok h2
  subst hk1
  subst hk2
  refine ⟨rfl, rfl, rfl, hinc1, ?_, ?_⟩
  · intro hkey
    exact hne (generateMailboxKey_inj hkey)
  · intro hstr
    exact hne (mailboxKeyToString_gen_inj hstr)

/-- C9 witness: the keys from counters 0 and 1 differ, in both tuple and
stable-string form. -/
theorem claim_C9_witness :
    generateMailboxKey 0 ≠ generateMailboxKey 1 ∧
    mailboxKeyToString (generateMailboxKey 0) ≠
      mailboxKeyToString (generateMailboxKey 1) := by
  have h := claim_C9_unique_keys (R := Unit) 5
    ⟨false, 0, fun _ => none, 0, 0, 0⟩ ⟨false, 1, fun _ => none, 0, 0, 0⟩
    (generateMailboxKey 0) (generateMailboxKey 1) rfl rfl (by decide)
  exact ⟨h.2.2.2.2.1, h.2.2.2.2.2⟩

end ParkingLot
